import Mathlib

/-
  A shallow embedding of the pysenku game engine:
    - src/pysenku/util/stack.py      (DynamicBoundedStack)
    - src/pysenku/model/move.py      (Move)
    - src/pysenku/model/senkugame.py (SenkuGame, avg, the notified aspects)
  Pure data is translated to Lean values; the stateful methods become
  functions from the game state to the new state, the list of notifications
  emitted through Subject.notify, and the Python exception if one escaped
  (state changes made before the raise are kept, as in Python).
-/

namespace PySenku

/-- Board positions are Python pairs of ints. -/
abbrev Pos : Type := ℤ × ℤ

/-- Exceptions raised by the Python runtime in the modelled code: a failed
dict subscript, and `list.pop` on an empty or too-short list.  The latter is
what the spec calls EmptyHistoryError. -/
inductive PyErr : Type where
  | keyError (key : Pos)
  | indexError
deriving DecidableEq

deriving instance DecidableEq for Except

/-- The auxiliary function `avg` of senkugame.py: componentwise average of two
pairs, with Python 2 integer division, which rounds toward minus infinity. -/
def avg (a b : Pos) : Pos :=
  ((a.1 + b.1).fdiv 2, (a.2 + b.2).fdiv 2)

/-- The board `_board` is a Python dict from position to occupancy, modelled
as an insertion-ordered association list; the dict operations below keep the
keys distinct. -/
abbrev Board : Type := List (Pos × Bool)

/-- Reading a dict entry: the value of the first (only) matching key. -/
def lookupPos : Board → Pos → Option Bool
  | [], _ => none
  | (k, v) :: rest, key => if k = key then some v else lookupPos rest key

/-- Python dict subscript `d[k]`: the stored value, or a KeyError. -/
def dictGet (d : Board) (k : Pos) : Except PyErr Bool :=
  match lookupPos d k with
  | some v => .ok v
  | none => .error (.keyError k)

/-- Python dict assignment `d[k] = v`: update the entry in place when the key
is present, otherwise append a new entry. -/
def dictSet (d : Board) (k : Pos) (v : Bool) : Board :=
  if (lookupPos d k).isSome then
    d.map (fun kv => if kv.1 = k then (k, v) else kv)
  else
    d ++ [(k, v)]

/-- The key list of the board dict, in insertion order. -/
def keys (d : Board) : List Pos := d.map Prod.fst

/-- A Move of move.py: origin, midpoint and destination.  The Python object
also keeps a reference to the game; the embedding passes the game state to
`execute` and `undo` explicitly instead. -/
structure Move : Type where
  origin : Pos
  mid : Pos
  dest : Pos
deriving DecidableEq

/-- The Move constructor: the midpoint is derived with `avg`. -/
def mkMove (orig dest : Pos) : Move :=
  { origin := orig, mid := avg orig dest, dest := dest }

/-- The DynamicBoundedStack of stack.py: a Python list (oldest element first)
together with the maximum number of elements. -/
structure DynamicBoundedStack (α : Type) : Type where
  data : List α
  size : ℕ
deriving DecidableEq

variable {α : Type}

/-- Method is_full: the stack reached the maximum size. -/
def DynamicBoundedStack.is_full (s : DynamicBoundedStack α) : Bool :=
  s.data.length = s.size

/-- Method is_empty: the stack has no elements. -/
def DynamicBoundedStack.is_empty (s : DynamicBoundedStack α) : Bool :=
  s.data.isEmpty

/-- Method make_empty: remove all elements. -/
def DynamicBoundedStack.make_empty (s : DynamicBoundedStack α) :
    DynamicBoundedStack α :=
  { data := [], size := s.size }

/-- Method push: when the stack is full, first remove the oldest element with
`self._data.pop(0)` (which raises IndexError on an empty list, reachable only
with size 0), then append the new element. -/
def DynamicBoundedStack.push (s : DynamicBoundedStack α) (elem : α) :
    Except PyErr (DynamicBoundedStack α) :=
  if s.is_full then
    match s.data with
    | [] => .error .indexError
    | _ :: rest => .ok { data := rest ++ [elem], size := s.size }
  else
    .ok { data := s.data ++ [elem], size := s.size }

/-- Method pop: remove and return the last element pushed; `self._data.pop()`
raises IndexError when the list is empty. -/
def DynamicBoundedStack.pop (s : DynamicBoundedStack α) :
    Except PyErr (α × DynamicBoundedStack α) :=
  match s.data.getLast? with
  | none => .error .indexError
  | some x => .ok (x, { data := s.data.dropLast, size := s.size })

/-- The aspects passed to Subject.notify by the model, with their payloads:
CELL_ON, CELL_OFF, UNDO_STACK (the payload is the stack, recorded here by its
contents) and GAME_OVER. -/
inductive Notification : Type where
  | cellOn (pos : Pos)
  | cellOff (pos : Pos)
  | undoStack (data : List Move)
  | gameOver (cellsLeft : ℕ)
deriving DecidableEq

/-- Constant MAX_UNDO_ACTIONS of senkugame.py. -/
def MAX_UNDO_ACTIONS : ℕ := 5

/-- Constant DEFAULT_GAME_TRACKING of senkugame.py. -/
def DEFAULT_GAME_TRACKING : Bool := true

/-- The state of a SenkuGame: the board dict, the undo stack and the
tracking flag. -/
structure SenkuGame : Type where
  board : Board
  undoStack : DynamicBoundedStack Move
  withTracking : Bool
deriving DecidableEq

/-- The outcome of one engine call: the state after the call, the
notifications emitted during it (in order), and the escaped exception, if
any. -/
abbrev StepResult : Type := SenkuGame × List Notification × Option PyErr

/-- Method fill_cell: store True and notify CELL_ON. -/
def fill_cell (g : SenkuGame) (cell : Pos) : SenkuGame × Notification :=
  ({ g with board := dictSet g.board cell true }, .cellOn cell)

/-- Method empty_cell: store False and notify CELL_OFF. -/
def empty_cell (g : SenkuGame) (cell : Pos) : SenkuGame × Notification :=
  ({ g with board := dictSet g.board cell false }, .cellOff cell)

/-- Method check_distance: the two points differ by exactly 2 on one axis and
agree on the other. -/
def check_distance (orig dest : Pos) : Bool :=
  (decide (|orig.1 - dest.1| = 2) && decide (orig.2 = dest.2)) ||
  (decide (|orig.2 - dest.2| = 2) && decide (orig.1 = dest.1))

/-- Method check_cells: origin filled, destination empty, the cell between
them filled.  Python evaluates the conjunction left to right and stops at the
first falsy operand, so later dict subscripts (and their KeyErrors) are
skipped once an earlier condition fails. -/
def check_cells (d : Board) (orig dest : Pos) : Except PyErr Bool :=
  match dictGet d orig with
  | .error e => .error e
  | .ok false => .ok false
  | .ok true =>
    match dictGet d dest with
    | .error e => .error e
    | .ok true => .ok false
    | .ok false => dictGet d (avg orig dest)

/-- Inner loop of check_end: try each candidate destination in `ks` for the
occupied cell `pos1`; `ok true` models the early `return None` (a movement
exists), `ok false` a completed loop. -/
def scanDest (d : Board) (pos1 : Pos) : List Pos → Except PyErr Bool
  | [] => .ok false
  | pos2 :: ks =>
    if check_distance pos1 pos2 then
      match check_cells d pos1 pos2 with
      | .error e => .error e
      | .ok true => .ok true
      | .ok false => scanDest d pos1 ks
    else
      scanDest d pos1 ks

/-- Outer loop of check_end over the dict items, counting the occupied cells;
`ok none` models the early `return None`, `ok (some n)` a completed scan with
`cells_left = n`. -/
def scanBoard (d : Board) : List (Pos × Bool) → ℕ → Except PyErr (Option ℕ)
  | [], cellsLeft => .ok (some cellsLeft)
  | (pos1, cell) :: items, cellsLeft =>
    if cell then
      match scanDest d pos1 (keys d) with
      | .error e => .error e
      | .ok true => .ok none
      | .ok false => scanBoard d items (cellsLeft + 1)
    else
      scanBoard d items cellsLeft

/-- Method check_end: notify GAME_OVER with the number of cells left when no
movement is possible, nothing when a movement is found. -/
def check_end (g : SenkuGame) : List Notification × Option PyErr :=
  match scanBoard g.board g.board 0 with
  | .error e => ([], some e)
  | .ok none => ([], none)
  | .ok (some n) => ([.gameOver n], none)

/-- Method movement_done: push the command, notify UNDO_STACK, and when
tracking is enabled run check_end. -/
def movement_done (g : SenkuGame) (command : Move) : StepResult :=
  match g.undoStack.push command with
  | .error e => (g, [], some e)
  | .ok stack =>
    let g1 : SenkuGame := { g with undoStack := stack }
    if g1.withTracking then
      let r := check_end g1
      (g1, Notification.undoStack stack.data :: r.1, r.2)
    else
      (g1, [Notification.undoStack stack.data], none)

/-- Method Move.execute: when both checks pass, empty the origin, fill the
destination, empty the midpoint, then movement_done; otherwise do nothing.
A KeyError escaping check_cells leaves the state untouched (nothing was
mutated yet). -/
def Move.execute (m : Move) (g : SenkuGame) : StepResult :=
  if check_distance m.origin m.dest then
    match check_cells g.board m.origin m.dest with
    | .error e => (g, [], some e)
    | .ok false => (g, [], none)
    | .ok true =>
      let p1 := empty_cell g m.origin
      let p2 := fill_cell p1.1 m.dest
      let p3 := empty_cell p2.1 m.mid
      let r := movement_done p3.1 m
      (r.1, p1.2 :: p2.2 :: p3.2 :: r.2.1, r.2.2)
  else
    (g, [], none)

/-- Method Move.undo: fill the origin, fill the midpoint, empty the
destination, in that order. -/
def Move.undo (m : Move) (g : SenkuGame) : SenkuGame × List Notification :=
  let p1 := fill_cell g m.origin
  let p2 := fill_cell p1.1 m.mid
  let p3 := empty_cell p2.1 m.dest
  (p3.1, [p1.2, p2.2, p3.2])

/-- Method SenkuGame.undo: pop the last command (IndexError when the history
is empty), run its undo, then notify UNDO_STACK. -/
def SenkuGame.undo (g : SenkuGame) : StepResult :=
  match g.undoStack.pop with
  | .error e => (g, [], some e)
  | .ok (m, stack) =>
    let g1 : SenkuGame := { g with undoStack := stack }
    let p := m.undo g1
    (p.1, p.2 ++ [Notification.undoStack stack.data], none)

/-- The order in which the private method __fill_board fills the cells: rows
0, 1, 5, 6 restricted to columns 2..4, then rows 2..4 over all columns. -/
def fillOrder : List Pos :=
  ([0, 1, 5, 6] : List ℤ).flatMap (fun x => ([2, 3, 4] : List ℤ).map (fun y => (x, y))) ++
  ([2, 3, 4] : List ℤ).flatMap (fun x => ([0, 1, 2, 3, 4, 5, 6] : List ℤ).map (fun y => (x, y)))

/-- Private method __fill_board: fill every playable cell in `fillOrder`,
then empty the centre (3, 3). -/
def fill_board (g : SenkuGame) : SenkuGame × List Notification :=
  let r := fillOrder.foldl
    (fun (acc : SenkuGame × List Notification) cell =>
      let p := fill_cell acc.1 cell
      (p.1, acc.2 ++ [p.2]))
    (g, [])
  let p := empty_cell r.1 ((3 : ℤ), (3 : ℤ))
  (p.1, r.2 ++ [p.2])

/-- The SenkuGame constructor: an empty dict filled by __fill_board, a fresh
undo stack of capacity MAX_UNDO_ACTIONS, the default tracking flag. -/
def initGame : SenkuGame :=
  (fill_board
    { board := [],
      undoStack := { data := [], size := MAX_UNDO_ACTIONS },
      withTracking := DEFAULT_GAME_TRACKING }).1

/-- Method get_all_changes: notify UNDO_STACK, then one cell notification per
board key, reading the dict at that key (which cannot fail, since the key
list is taken from the same dict). -/
def get_all_changes (g : SenkuGame) : StepResult :=
  (g,
   Notification.undoStack g.undoStack.data ::
     (keys g.board).map (fun k =>
       match lookupPos g.board k with
       | some true => Notification.cellOn k
       | _ => Notification.cellOff k),
   none)

/-- Method restart: refill the board, empty the undo stack, notify
UNDO_STACK. -/
def restart (g : SenkuGame) : StepResult :=
  let p := fill_board g
  let g1 : SenkuGame := { p.1 with undoStack := p.1.undoStack.make_empty }
  (g1, p.2 ++ [Notification.undoStack g1.undoStack.data], none)

/-- Method set_tracking: set the flag; nothing is notified. -/
def set_tracking (g : SenkuGame) (track : Bool) : StepResult :=
  ({ g with withTracking := track }, [], none)

/-- The attemptMove entry point: the caller builds a Move from the game and
the two positions and calls execute (uisenku.py, line 164). -/
def attempt_move (g : SenkuGame) (orig dest : Pos) : StepResult :=
  (mkMove orig dest).execute g

/-- The engine operations a caller can invoke on the game. -/
inductive Op : Type where
  | attemptMove (orig dest : Pos)
  | undoOp
  | restartOp
  | setTracking (track : Bool)
  | replayAllState
  | checkEnd
deriving DecidableEq

/-- One engine call. -/
def step (g : SenkuGame) (op : Op) : StepResult :=
  match op with
  | .attemptMove orig dest => attempt_move g orig dest
  | .undoOp => g.undo
  | .restartOp => restart g
  | .setTracking b => set_tracking g b
  | .replayAllState => get_all_changes g
  | .checkEnd =>
    let r := check_end g
    (g, r.1, r.2)

/-- Run a sequence of engine calls, keeping the final state. -/
def runOps (g : SenkuGame) : List Op → SenkuGame
  | [] => g
  | op :: ops => runOps (step g op).1 ops

/-- The number of occupied cells of a board. -/
def occupiedCount (d : Board) : ℕ :=
  (d.filter (fun kv => kv.2)).length

/-- The scrutinised result of check_cells is `ok true`. -/
def isOkTrue : Except PyErr Bool → Bool
  | .ok true => true
  | _ => false

/-- Some key destination for `pos1` passes both checks on `d`. -/
def foundB (d : Board) (pos1 : Pos) : Bool :=
  (keys d).any (fun pos2 =>
    check_distance pos1 pos2 && isOkTrue (check_cells d pos1 pos2))

/-- A movement is possible on the board: some occupied key has a key
destination passing both checks. -/
def movementExists (d : Board) : Bool :=
  d.any (fun kv => kv.2 && foundB d kv.1)

/-- The same property propositionally: some occupied cell of the board has a
board cell as destination passing the distance check and the occupancy
check. -/
def MovementPossible (d : Board) : Prop :=
  ∃ p1 p2, lookupPos d p1 = some true ∧ p2 ∈ keys d ∧
    check_distance p1 p2 = true ∧ check_cells d p1 p2 = .ok true

/-- The valid cell set as the spec describes it: rows 2..4 over all columns,
plus rows 0, 1, 5, 6 over columns 2..4. -/
def inCross (p : Pos) : Prop :=
  (p.1 ∈ ([2, 3, 4] : List ℤ) ∧ p.2 ∈ ([0, 1, 2, 3, 4, 5, 6] : List ℤ)) ∨
  (p.1 ∈ ([0, 1, 5, 6] : List ℤ) ∧ p.2 ∈ ([2, 3, 4] : List ℤ))

instance : DecidablePred inCross := fun p => by
  unfold inCross
  infer_instance

/-- Push a whole list of elements, left to right, stopping at the first
failure. -/
def pushAll (s : DynamicBoundedStack α) : List α → Except PyErr (DynamicBoundedStack α)
  | [] => .ok s
  | x :: xs =>
    match s.push x with
    | .error e => .error e
    | .ok s1 => pushAll s1 xs

/-- Set every cell of `cs` to True, in order (the loops of __fill_board seen
on the dict alone). -/
def fillTrue (d : Board) (cs : List Pos) : Board :=
  cs.foldl (fun d1 c => dictSet d1 c true) d

/-- The canonical initial board: the 33 cells of `fillOrder` in insertion
order, all True except the centre. -/
def initBoard : Board :=
  fillOrder.map (fun p => (p, decide (p ≠ ((3 : ℤ), (3 : ℤ)))))

/-- The representation invariant of a reachable game state: the board keys
are exactly `fillOrder`, and every stacked move has origin, midpoint and
destination among them. -/
def StateInv (g : SenkuGame) : Prop :=
  keys g.board = fillOrder ∧
  ∀ m ∈ g.undoStack.data,
    m.origin ∈ fillOrder ∧ m.mid ∈ fillOrder ∧ m.dest ∈ fillOrder

/-- Claim C6 as stated, as a checker along a run: every GAME_OVER
notification happens with tracking enabled and no movement left on the
post-call board. -/
def gameOverOnlyTracked (g : SenkuGame) : List Op → Bool
  | [] => true
  | op :: ops =>
    let r := step g op
    (r.2.1.all fun n =>
      match n with
      | .gameOver _ => r.1.withTracking && !movementExists r.1.board
      | _ => true) && gameOverOnlyTracked r.1 ops

/-- Claim C6 as amended: every GAME_OVER notification happens with no
movement left on the post-call board, and with tracking enabled whenever the
call was an attemptMove. -/
def gameOverSound (g : SenkuGame) : List Op → Bool
  | [] => true
  | op :: ops =>
    let r := step g op
    (r.2.1.all fun n =>
      match n with
      | .gameOver _ =>
        !movementExists r.1.board &&
          (match op with
           | .attemptMove _ _ => r.1.withTracking
           | _ => true)
      | _ => true) && gameOverSound r.1 ops

/-- A run that disables tracking, plays six legal moves into a position with
no movement left, then calls check_end directly. -/
def c6_ops : List Op :=
  [.setTracking false,
   .attemptMove (1, 3) (3, 3), .attemptMove (4, 3) (2, 3),
   .attemptMove (6, 3) (4, 3), .attemptMove (3, 1) (3, 3),
   .attemptMove (3, 4) (3, 2), .attemptMove (3, 6) (3, 4),
   .checkEnd]

/-- A reachable state whose cell (1, 3) is valid but empty: tracking is
switched off and the jump from (1, 3) into the centre is played. -/
def c10_state : SenkuGame :=
  runOps initGame [.setTracking false, .attemptMove (1, 3) (3, 3)]

/-- A reachable state with exactly one stacked move, used to exercise undo. -/
def c5_game : SenkuGame :=
  runOps initGame [.setTracking false, .attemptMove (1, 3) (3, 3)]

/-! Lemmas about the dict operations. -/

lemma lookupPos_isSome_iff (d : Board) (p : Pos) :
    (lookupPos d p).isSome ↔ p ∈ keys d := by
  induction d with
  | nil => simp [lookupPos, keys]
  | cons kv rest ih =>
    obtain ⟨k, v⟩ := kv
    by_cases h : k = p
    · subst h
      simp [lookupPos, keys]
    · have h2 : p ≠ k := fun hh => h hh.symm
      simp [lookupPos, keys, h, h2, ih]

lemma lookupPos_mapUpdate_self (k : Pos) (v : Bool) (d : Board)
    (h : (lookupPos d k).isSome) :
    lookupPos (d.map (fun kv => if kv.1 = k then (k, v) else kv)) k = some v := by
  induction d with
  | nil => simp [lookupPos] at h
  | cons kv rest ih =>
    obtain ⟨k1, v1⟩ := kv
    by_cases h1 : k1 = k
    · subst h1
      have hf : (if ((k1 : Pos), (v1 : Bool)).1 = k1 then ((k1, v) : Pos × Bool) else (k1, v1))
          = (k1, v) := by simp
      rw [List.map_cons, hf]
      simp [lookupPos]
    · simp only [lookupPos, if_neg h1] at h
      have hf : (if ((k1 : Pos), (v1 : Bool)).1 = k then ((k, v) : Pos × Bool) else (k1, v1))
          = (k1, v1) := by simp [h1]
      rw [List.map_cons, hf]
      simp only [lookupPos, if_neg h1]
      exact ih h

lemma lookupPos_mapUpdate_ne (k : Pos) (v : Bool) (d : Board) (p : Pos)
    (h : p ≠ k) :
    lookupPos (d.map (fun kv => if kv.1 = k then (k, v) else kv)) p =
      lookupPos d p := by
  induction d with
  | nil => simp [lookupPos]
  | cons kv rest ih =>
    obtain ⟨k1, v1⟩ := kv
    by_cases h1 : k1 = k
    · subst h1
      have hkp : ¬ k1 = p := fun h2 => h h2.symm
      have hf : (if ((k1 : Pos), (v1 : Bool)).1 = k1 then ((k1, v) : Pos × Bool) else (k1, v1))
          = (k1, v) := by simp
      rw [List.map_cons, hf]
      simp only [lookupPos, if_neg hkp]
      exact ih
    · have hf : (if ((k1 : Pos), (v1 : Bool)).1 = k then ((k, v) : Pos × Bool) else (k1, v1))
          = (k1, v1) := by simp [h1]
      rw [List.map_cons, hf]
      simp only [lookupPos]
      by_cases h2 : k1 = p
      · simp [h2]
      · simp only [if_neg h2]
        exact ih

lemma lookupPos_append_single_self (d : Board) (k : Pos) (v : Bool)
    (h : lookupPos d k = none) :
    lookupPos (d ++ [(k, v)]) k = some v := by
  induction d with
  | nil => simp [lookupPos]
  | cons kv rest ih =>
    obtain ⟨k1, v1⟩ := kv
    by_cases h1 : k1 = k
    · simp [lookupPos, if_pos h1] at h
    · simp only [lookupPos, if_neg h1] at h
      simp [lookupPos, h1]
      exact ih h

lemma lookupPos_append_single_ne (d : Board) (k : Pos) (v : Bool) (p : Pos)
    (h : p ≠ k) :
    lookupPos (d ++ [(k, v)]) p = lookupPos d p := by
  induction d with
  | nil =>
    have h2 : ¬ k = p := fun h3 => h h3.symm
    simp [lookupPos, h2]
  | cons kv rest ih =>
    obtain ⟨k1, v1⟩ := kv
    by_cases h1 : k1 = p
    · simp [List.cons_append, lookupPos, if_pos h1]
    · simp only [List.cons_append, lookupPos, if_neg h1]
      exact ih

lemma lookupPos_dictSet_self (d : Board) (k : Pos) (v : Bool) :
    lookupPos (dictSet d k v) k = some v := by
  unfold dictSet
  by_cases h : (lookupPos d k).isSome
  · rw [if_pos h]
    exact lookupPos_mapUpdate_self k v d h
  · rw [if_neg h]
    exact lookupPos_append_single_self d k v (by
      cases h1 : lookupPos d k
      · rfl
      · rw [h1] at h
        simp at h)

lemma lookupPos_dictSet_ne (d : Board) (k : Pos) (v : Bool) (p : Pos)
    (h : p ≠ k) :
    lookupPos (dictSet d k v) p = lookupPos d p := by
  unfold dictSet
  by_cases h1 : (lookupPos d k).isSome
  · rw [if_pos h1]
    exact lookupPos_mapUpdate_ne k v d p h
  · rw [if_neg h1]
    exact lookupPos_append_single_ne d k v p h

lemma keys_mapUpdate (k : Pos) (v : Bool) (d : Board) :
    keys (d.map (fun kv => if kv.1 = k then (k, v) else kv)) = keys d := by
  induction d with
  | nil => rfl
  | cons kv rest ih =>
    obtain ⟨k1, v1⟩ := kv
    by_cases h1 : k1 = k
    · subst h1
      have hf : (if ((k1 : Pos), (v1 : Bool)).1 = k1 then ((k1, v) : Pos × Bool) else (k1, v1))
          = (k1, v) := by simp
      rw [List.map_cons, hf]
      simp only [keys, List.map_cons] at ih ⊢
      rw [ih]
    · have hf : (if ((k1 : Pos), (v1 : Bool)).1 = k then ((k, v) : Pos × Bool) else (k1, v1))
        = (k1, v1) := by simp [h1]
      rw [List.map_cons, hf]
      simp only [keys, List.map_cons] at ih ⊢
      rw [ih]

lemma keys_dictSet_present (d : Board) (k : Pos) (v : Bool)
    (h : (lookupPos d k).isSome) :
    keys (dictSet d k v) = keys d := by
  unfold dictSet
  rw [if_pos h]
  exact keys_mapUpdate k v d

lemma lookupPos_eq_some_mem (d : Board) (p : Pos) (b : Bool)
    (h : lookupPos d p = some b) : (p, b) ∈ d := by
  induction d with
  | nil => simp [lookupPos] at h
  | cons kv rest ih =>
    obtain ⟨k, v⟩ := kv
    by_cases h1 : k = p
    · subst h1
      simp only [lookupPos, if_true, eq_self_iff_true, Option.some.injEq] at h
      rw [← h]
      exact List.mem_cons_self _ _
    · simp only [lookupPos, if_neg h1] at h
      exact List.mem_cons_of_mem _ (ih h)

lemma mem_keys_of_mem (d : Board) (p : Pos) (b : Bool) (h : (p, b) ∈ d) :
    p ∈ keys d := by
  unfold keys
  exact List.mem_map.2 ⟨(p, b), h, rfl⟩

lemma mem_lookupPos_nodup (d : Board) (p : Pos) (b : Bool)
    (hnd : (keys d).Nodup) (h : (p, b) ∈ d) : lookupPos d p = some b := by
  induction d with
  | nil => simp at h
  | cons kv rest ih =>
    obtain ⟨k, v⟩ := kv
    simp only [keys, List.map_cons, List.nodup_cons] at hnd
    rcases List.mem_cons.1 h with h1 | h1
    · obtain ⟨hk, hv⟩ := Prod.ext_iff.1 h1
      simp only at hk hv
      subst hk
      simp [lookupPos, hv]
    · have hkp : ¬ k = p := by
        intro h2
        subst h2
        exact hnd.1 (mem_keys_of_mem rest k b h1)
      simp only [lookupPos, if_neg hkp]
      exact ih hnd.2 h1

lemma lookupPos_eq_none_iff (d : Board) (p : Pos) :
    lookupPos d p = none ↔ p ∉ keys d := by
  rw [← lookupPos_isSome_iff]
  cases h : lookupPos d p <;> simp

lemma eq_of_lookupPos_eq (d1 d2 : Board) (hk : keys d1 = keys d2)
    (hnd : (keys d1).Nodup) (h : ∀ p, lookupPos d1 p = lookupPos d2 p) :
    d1 = d2 := by
  induction d1 generalizing d2 with
  | nil =>
    cases d2 with
    | nil => rfl
    | cons kv rest => simp [keys] at hk
  | cons kv rest ih =>
    obtain ⟨k, v⟩ := kv
    cases d2 with
    | nil => simp [keys] at hk
    | cons kv2 rest2 =>
      obtain ⟨k2, v2⟩ := kv2
      simp only [keys, List.map_cons, List.cons.injEq] at hk
      obtain ⟨hk1, hk2⟩ := hk
      subst hk1
      have hv : v = v2 := by
        have h1 := h k
        simp [lookupPos] at h1
        exact h1
      subst hv
      simp only [keys, List.map_cons, List.nodup_cons] at hnd
      have htail : rest = rest2 := by
        apply ih
        · exact hk2
        · exact hnd.2
        · intro p
          by_cases hp : k = p
          · subst hp
            have e1 : lookupPos rest k = none :=
              (lookupPos_eq_none_iff rest k).2 hnd.1
            have e2 : lookupPos rest2 k = none :=
              (lookupPos_eq_none_iff rest2 k).2 (by
                unfold keys
                rw [← hk2]
                exact hnd.1)
            rw [e1, e2]
          · have h1 := h p
            simp only [lookupPos, if_neg hp] at h1
            exact h1
      rw [htail]

lemma lookupPos_map_pair (l : List Pos) (f : Pos → Bool) (q : Pos) :
    lookupPos (l.map (fun p => (p, f p))) q =
      if q ∈ l then some (f q) else none := by
  induction l with
  | nil => simp [lookupPos]
  | cons p0 rest ih =>
    by_cases h : p0 = q
    · subst h
      simp [lookupPos]
    · have h2 : ¬ q = p0 := fun hh => h hh.symm
      simp [lookupPos, h, h2, ih]

/-! Lemmas about fillTrue, the dict effect of the loops of __fill_board. -/

lemma fillTrue_cons (d : Board) (c : Pos) (cs : List Pos) :
    fillTrue d (c :: cs) = fillTrue (dictSet d c true) cs := rfl

lemma lookupPos_fillTrue (cs : List Pos) (d : Board) (p : Pos) :
    lookupPos (fillTrue d cs) p =
      if p ∈ cs then some true else lookupPos d p := by
  induction cs generalizing d with
  | nil => simp [fillTrue]
  | cons c rest ih =>
    rw [fillTrue_cons, ih]
    by_cases h : p ∈ rest
    · simp [h]
    · by_cases h2 : p = c
      · subst h2
        simp [h, lookupPos_dictSet_self]
      · simp [h, h2, lookupPos_dictSet_ne d c true p h2]

lemma keys_fillTrue (cs : List Pos) (d : Board)
    (h : ∀ c ∈ cs, c ∈ keys d) :
    keys (fillTrue d cs) = keys d := by
  induction cs generalizing d with
  | nil => simp [fillTrue]
  | cons c rest ih =>
    rw [fillTrue_cons]
    have hc : (lookupPos d c).isSome :=
      (lookupPos_isSome_iff d c).2 (h c (List.mem_cons_self _ _))
    have hkeys := keys_dictSet_present d c true hc
    rw [ih (dictSet d c true) (fun c2 h2 => by
      rw [hkeys]
      exact h c2 (List.mem_cons_of_mem _ h2))]
    exact hkeys

/-! Facts about fillOrder, the cross shape and the midpoint. -/

lemma fillOrder_nodup : fillOrder.Nodup := by decide

lemma mem_fillOrder_iff_inCross (p : Pos) : p ∈ fillOrder ↔ inCross p := by
  constructor
  · intro h
    have hall : fillOrder.all (fun q => decide (inCross q)) = true := by decide
    rw [List.all_eq_true] at hall
    have := hall p h
    simpa using this
  · intro h
    obtain ⟨a, b⟩ := p
    unfold inCross at h
    rcases h with ⟨h1, h2⟩ | ⟨h1, h2⟩ <;> simp only [List.mem_cons,
      List.mem_singleton, List.not_mem_nil, or_false] at h1 h2 <;>
      rcases h1 with rfl | rfl | rfl | rfl <;>
      rcases h2 with rfl | rfl | rfl | rfl | rfl | rfl | rfl <;> decide

lemma avg_mem_fillOrder (p1 p2 : Pos) (h1 : p1 ∈ fillOrder)
    (h2 : p2 ∈ fillOrder) (hd : check_distance p1 p2 = true) :
    avg p1 p2 ∈ fillOrder := by
  have hall : fillOrder.all (fun q1 => fillOrder.all (fun q2 =>
      !check_distance q1 q2 || decide (avg q1 q2 ∈ fillOrder))) = true := by
    decide
  rw [List.all_eq_true] at hall
  have h3 := hall p1 h1
  rw [List.all_eq_true] at h3
  have h4 := h3 p2 h2
  rw [hd] at h4
  simpa using h4

lemma check_distance_iff (o t : Pos) :
    check_distance o t = true ↔
      ((|o.1 - t.1| = 2 ∧ o.2 = t.2) ∨ (|o.2 - t.2| = 2 ∧ o.1 = t.1)) := by
  simp [check_distance]

lemma avg_ne (o t : Pos) (h : check_distance o t = true) :
    avg o t ≠ o ∧ avg o t ≠ t ∧ o ≠ t := by
  rw [check_distance_iff] at h
  have h2 : (2 : ℤ) ≠ 0 := by norm_num
  have hmain : (avg o t).1 ≠ o.1 ∧ (avg o t).1 ≠ t.1 ∧ o.1 ≠ t.1 ∨
      (avg o t).2 ≠ o.2 ∧ (avg o t).2 ≠ t.2 ∧ o.2 ≠ t.2 := by
    rcases h with ⟨h1, hEq⟩ | ⟨h1, hEq⟩
    · left
      rcases (abs_eq (by norm_num : (0 : ℤ) ≤ 2)).1 h1 with hd | hd
      · have hm : (avg o t).1 = t.1 + 1 := by
          unfold avg
          have e1 : o.1 + t.1 = 2 * (t.1 + 1) := by omega
          rw [e1, Int.mul_fdiv_cancel_left _ h2]
        refine ⟨?_, ?_, ?_⟩ <;> omega
      · have hm : (avg o t).1 = t.1 - 1 := by
          unfold avg
          have e1 : o.1 + t.1 = 2 * (t.1 - 1) := by omega
          rw [e1, Int.mul_fdiv_cancel_left _ h2]
        refine ⟨?_, ?_, ?_⟩ <;> omega
    · right
      rcases (abs_eq (by norm_num : (0 : ℤ) ≤ 2)).1 h1 with hd | hd
      · have hm : (avg o t).2 = t.2 + 1 := by
          unfold avg
          have e1 : o.2 + t.2 = 2 * (t.2 + 1) := by omega
          rw [e1, Int.mul_fdiv_cancel_left _ h2]
        refine ⟨?_, ?_, ?_⟩ <;> omega
      · have hm : (avg o t).2 = t.2 - 1 := by
          unfold avg
          have e1 : o.2 + t.2 = 2 * (t.2 - 1) := by omega
          rw [e1, Int.mul_fdiv_cancel_left _ h2]
        refine ⟨?_, ?_, ?_⟩ <;> omega
  have hne : ∀ a b : Pos, a.1 ≠ b.1 ∨ a.2 ≠ b.2 → a ≠ b := by
    intro a b hab hc
    subst hc
    rcases hab with hab | hab <;> exact hab rfl
  rcases hmain with ⟨e1, e2, e3⟩ | ⟨e1, e2, e3⟩
  · exact ⟨hne _ _ (Or.inl e1), hne _ _ (Or.inl e2), hne _ _ (Or.inl e3)⟩
  · exact ⟨hne _ _ (Or.inr e1), hne _ _ (Or.inr e2), hne _ _ (Or.inr e3)⟩

/-! Lemmas about check_cells. -/

lemma check_cells_ok_true_iff (d : Board) (o t : Pos) :
    check_cells d o t = .ok true ↔
      lookupPos d o = some true ∧ lookupPos d t = some false ∧
        lookupPos d (avg o t) = some true := by
  unfold check_cells dictGet
  cases h1 : lookupPos d o with
  | none => simp [h1]
  | some b1 =>
    cases b1 with
    | false => simp [h1]
    | true =>
      cases h2 : lookupPos d t with
      | none => simp [h2]
      | some b2 =>
        cases b2 with
        | false =>
          cases h3 : lookupPos d (avg o t) with
          | none => simp [h3]
          | some b3 => cases b3 <;> simp [h3]
        | true => simp [h2]

lemma check_cells_ok_false_cases (d : Board) (o t : Pos)
    (h : check_cells d o t = .ok false) :
    lookupPos d o = some false ∨
      (lookupPos d o = some true ∧ lookupPos d t = some true) ∨
      (lookupPos d o = some true ∧ lookupPos d t = some false ∧
        lookupPos d (avg o t) = some false) := by
  unfold check_cells dictGet at h
  cases h1 : lookupPos d o with
  | none => rw [h1] at h; simp at h
  | some b1 =>
    rw [h1] at h
    cases b1 with
    | false => exact Or.inl rfl
    | true =>
      cases h2 : lookupPos d t with
      | none => rw [h2] at h; simp at h
      | some b2 =>
        rw [h2] at h
        cases b2 with
        | true => exact Or.inr (Or.inl ⟨rfl, rfl⟩)
        | false =>
          cases h3 : lookupPos d (avg o t) with
          | none => rw [h3] at h; simp at h
          | some b3 =>
            rw [h3] at h
            cases b3 with
            | false => exact Or.inr (Or.inr ⟨rfl, rfl, rfl⟩)
            | true => simp at h

lemma check_cells_isOk_of_keys (d : Board) (p1 p2 : Pos)
    (hkeys : keys d = fillOrder) (h1 : p1 ∈ keys d) (h2 : p2 ∈ keys d)
    (hd : check_distance p1 p2 = true) :
    ∃ b, check_cells d p1 p2 = .ok b := by
  obtain ⟨b1, hb1⟩ := Option.isSome_iff_exists.1 ((lookupPos_isSome_iff d p1).2 h1)
  obtain ⟨b2, hb2⟩ := Option.isSome_iff_exists.1 ((lookupPos_isSome_iff d p2).2 h2)
  have hmid : avg p1 p2 ∈ keys d := by
    rw [hkeys]
    exact avg_mem_fillOrder p1 p2 (hkeys ▸ h1) (hkeys ▸ h2) hd
  obtain ⟨b3, hb3⟩ :=
    Option.isSome_iff_exists.1 ((lookupPos_isSome_iff d (avg p1 p2)).2 hmid)
  unfold check_cells dictGet
  rw [hb1]
  cases b1 with
  | false => exact ⟨false, rfl⟩
  | true =>
    rw [hb2]
    cases b2 with
    | true => exact ⟨false, rfl⟩
    | false =>
      rw [hb3]
      exact ⟨b3, rfl⟩

/-! Lemmas about the two loops of check_end. -/

lemma scanDest_ok_false (d : Board) (p1 : Pos) (ks : List Pos)
    (h : scanDest d p1 ks = .ok false) :
    ∀ p2 ∈ ks, ¬(check_distance p1 p2 = true ∧ check_cells d p1 p2 = .ok true) := by
  induction ks with
  | nil => simp
  | cons k rest ih =>
    intro p2 hp2
    unfold scanDest at h
    by_cases hd : check_distance p1 k
    · rw [if_pos hd] at h
      cases hc : check_cells d p1 k with
      | error e => rw [hc] at h; simp at h
      | ok b =>
        cases b with
        | true => rw [hc] at h; simp at h
        | false =>
          rw [hc] at h
          rcases List.mem_cons.1 hp2 with rfl | hp2
          · intro hcon
            rw [hc] at hcon
            simp at hcon
          · exact ih h p2 hp2
    · rw [if_neg hd] at h
      rcases List.mem_cons.1 hp2 with rfl | hp2
      · intro hcon
        exact hd hcon.1
      · exact ih h p2 hp2

lemma scanDest_char (d : Board) (p1 : Pos) (ks : List Pos)
    (h : ∀ p2 ∈ ks, check_distance p1 p2 = true → ∃ b, check_cells d p1 p2 = .ok b) :
    scanDest d p1 ks =
      .ok (ks.any (fun p2 => check_distance p1 p2 && isOkTrue (check_cells d p1 p2))) := by
  induction ks with
  | nil => simp [scanDest]
  | cons k rest ih =>
    unfold scanDest
    by_cases hd : check_distance p1 k
    · rw [if_pos hd]
      obtain ⟨b, hb⟩ := h k (List.mem_cons_self _ _) hd
      cases b with
      | true =>
        rw [hb]
        simp [hd, hb, isOkTrue]
      | false =>
        rw [hb]
        rw [ih (fun p2 h2 => h p2 (List.mem_cons_of_mem _ h2))]
        simp [hd, hb, isOkTrue]
    · rw [if_neg hd]
      rw [ih (fun p2 h2 => h p2 (List.mem_cons_of_mem _ h2))]
      simp only [List.any_cons]
      rw [Bool.not_eq_true] at hd
      rw [hd]
      simp

lemma scanBoard_ok_some (d : Board) (items : List (Pos × Bool)) (acc n : ℕ)
    (h : scanBoard d items acc = .ok (some n)) :
    (∀ pc ∈ items, pc.2 = true → scanDest d pc.1 (keys d) = .ok false) ∧
      n = acc + occupiedCount items := by
  induction items generalizing acc with
  | nil =>
    simp only [scanBoard, Except.ok.injEq, Option.some.injEq] at h
    exact ⟨by simp, by simp [occupiedCount, ← h]⟩
  | cons pc rest ih =>
    obtain ⟨p1, c⟩ := pc
    unfold scanBoard at h
    cases c with
    | false =>
      rw [if_neg (by simp)] at h
      obtain ⟨h1, h2⟩ := ih acc h
      refine ⟨?_, ?_⟩
      · intro pc2 hpc2 hval
        rcases List.mem_cons.1 hpc2 with rfl | hpc2
        · simp at hval
        · exact h1 pc2 hpc2 hval
      · simpa [occupiedCount] using h2
    | true =>
      rw [if_pos rfl] at h
      cases hs : scanDest d p1 (keys d) with
      | error e => rw [hs] at h; simp at h
      | ok b =>
        cases b with
        | true => rw [hs] at h; simp at h
        | false =>
          rw [hs] at h
          obtain ⟨h1, h2⟩ := ih (acc + 1) h
          refine ⟨?_, ?_⟩
          · intro pc2 hpc2 hval
            rcases List.mem_cons.1 hpc2 with rfl | hpc2
            · exact hs
            · exact h1 pc2 hpc2 hval
          · rw [h2]
            simp [occupiedCount]
            omega

lemma scanBoard_char (d : Board) (items : List (Pos × Bool)) (acc : ℕ)
    (h : ∀ pc ∈ items, pc.2 = true → scanDest d pc.1 (keys d) = .ok (foundB d pc.1)) :
    scanBoard d items acc =
      if items.any (fun kv => kv.2 && foundB d kv.1) then .ok none
      else .ok (some (acc + occupiedCount items)) := by
  induction items generalizing acc with
  | nil => simp [scanBoard, occupiedCount]
  | cons pc rest ih =>
    obtain ⟨p1, c⟩ := pc
    unfold scanBoard
    cases c with
    | false =>
      rw [if_neg (by simp)]
      rw [ih acc (fun pc2 h2 hv => h pc2 (List.mem_cons_of_mem _ h2) hv)]
      have hany : ((((p1 : Pos), false) :: rest).any (fun kv => kv.2 && foundB d kv.1))
          = rest.any (fun kv => kv.2 && foundB d kv.1) := by simp
      have hocc : occupiedCount (((p1 : Pos), false) :: rest) = occupiedCount rest := by
        simp [occupiedCount]
      rw [hany, hocc]
    | true =>
      rw [if_pos rfl]
      have hs := h (p1, true) (List.mem_cons_self _ _) rfl
      simp only at hs
      rw [hs]
      cases hf : foundB d p1 with
      | true =>
        simp [hf]
      | false =>
        rw [ih (acc + 1) (fun pc2 h2 hv => h pc2 (List.mem_cons_of_mem _ h2) hv)]
        simp only [List.any_cons, hf, Bool.and_true, Bool.true_and,
          Bool.false_or]
        have hocc : occupiedCount ((p1, true) :: rest) = 1 + occupiedCount rest := by
          simp [occupiedCount]
          omega
        rw [hocc]
        by_cases hany : rest.any (fun kv => kv.2 && foundB d kv.1)
        · simp [hany]
        · simp only [Bool.not_eq_true] at hany
          rw [hany]
          have hne : ¬((false : Bool) = true) := by simp
          rw [if_neg hne, if_neg hne]
          have harith : acc + 1 + occupiedCount rest = acc + (1 + occupiedCount rest) := by
            omega
          rw [harith]

lemma isOkTrue_eq_true_iff (r : Except PyErr Bool) :
    isOkTrue r = true ↔ r = .ok true := by
  cases r with
  | error e => simp [isOkTrue]
  | ok b => cases b <;> simp [isOkTrue]

lemma scanDest_foundB (d : Board) (hkeys : keys d = fillOrder) (p1 : Pos)
    (hp1 : p1 ∈ keys d) :
    scanDest d p1 (keys d) = .ok (foundB d p1) := by
  rw [scanDest_char d p1 (keys d)
    (fun p2 h2 hd => check_cells_isOk_of_keys d p1 p2 hkeys hp1 h2 hd)]
  rfl

lemma movementExists_iff (d : Board) (hkeys : keys d = fillOrder) :
    movementExists d = true ↔ MovementPossible d := by
  unfold movementExists MovementPossible
  rw [List.any_eq_true]
  constructor
  · rintro ⟨⟨p1, c⟩, hmem, hkv⟩
    rw [Bool.and_eq_true] at hkv
    obtain ⟨h1, h2⟩ := hkv
    simp only at h1 h2
    subst h1
    have hnd : (keys d).Nodup := by
      rw [hkeys]
      exact fillOrder_nodup
    have hlk : lookupPos d p1 = some true := mem_lookupPos_nodup d p1 true hnd hmem
    unfold foundB at h2
    rw [List.any_eq_true] at h2
    obtain ⟨p2, hp2mem, hp2⟩ := h2
    rw [Bool.and_eq_true] at hp2
    exact ⟨p1, p2, hlk, hp2mem, hp2.1, (isOkTrue_eq_true_iff _).1 hp2.2⟩
  · rintro ⟨p1, p2, hlk, hp2, hdist, hcells⟩
    refine ⟨(p1, true), lookupPos_eq_some_mem d p1 true hlk, ?_⟩
    simp only [Bool.and_eq_true]
    refine ⟨trivial, ?_⟩
    unfold foundB
    rw [List.any_eq_true]
    exact ⟨p2, hp2, by
      rw [Bool.and_eq_true]
      exact ⟨hdist, (isOkTrue_eq_true_iff _).2 hcells⟩⟩

lemma check_end_char (g : SenkuGame) (hkeys : keys g.board = fillOrder) :
    check_end g =
      if movementExists g.board then ([], none)
      else ([Notification.gameOver (occupiedCount g.board)], none) := by
  unfold check_end
  have hscan := scanBoard_char g.board g.board 0 (fun pc hmem hval =>
    scanDest_foundB g.board hkeys pc.1 (mem_keys_of_mem g.board pc.1 pc.2 hmem))
  unfold movementExists
  by_cases hany : (g.board.any (fun kv => kv.2 && foundB g.board kv.1)) = true
  · rw [if_pos hany] at hscan
    rw [hscan, if_pos hany]
  · rw [if_neg hany] at hscan
    rw [hscan, if_neg hany]
    simp

/-! Lemmas about fill_board, push, pop and movement_done. -/

lemma foldl_fill_cell_fst (cs : List Pos) (a : SenkuGame × List Notification) :
    (cs.foldl (fun acc cell =>
      let p := fill_cell acc.1 cell
      (p.1, acc.2 ++ [p.2])) a).1 = { a.1 with board := fillTrue a.1.board cs } := by
  induction cs generalizing a with
  | nil => rfl
  | cons c rest ih =>
    simp only [List.foldl_cons]
    rw [ih]
    rfl

lemma foldl_fill_cell_snd_mem (cs : List Pos) (a : SenkuGame × List Notification)
    (n : Notification)
    (h : n ∈ (cs.foldl (fun acc cell =>
      let p := fill_cell acc.1 cell
      (p.1, acc.2 ++ [p.2])) a).2) :
    n ∈ a.2 ∨ ∃ p, n = Notification.cellOn p := by
  induction cs generalizing a with
  | nil => exact Or.inl h
  | cons c rest ih =>
    simp only [List.foldl_cons] at h
    rcases ih _ h with h2 | h2
    · rcases List.mem_append.1 h2 with h3 | h3
      · exact Or.inl h3
      · right
        refine ⟨c, ?_⟩
        simpa [fill_cell] using h3
    · exact Or.inr h2

lemma fill_board_fst (g : SenkuGame) :
    (fill_board g).1 =
      { g with board := dictSet (fillTrue g.board fillOrder) ((3 : ℤ), (3 : ℤ)) false } := by
  unfold fill_board
  simp only [foldl_fill_cell_fst, empty_cell]

lemma restart_fst (g : SenkuGame) :
    (restart g).1 =
      { board := dictSet (fillTrue g.board fillOrder) ((3 : ℤ), (3 : ℤ)) false,
        undoStack := { data := [], size := g.undoStack.size },
        withTracking := g.withTracking } := by
  unfold restart
  simp only [fill_board_fst, DynamicBoundedStack.make_empty]

lemma fill_board_snd_mem (g : SenkuGame) (n : Notification)
    (h : n ∈ (fill_board g).2) :
    (∃ p, n = Notification.cellOn p) ∨ (∃ p, n = Notification.cellOff p) := by
  unfold fill_board at h
  simp only at h
  rcases List.mem_append.1 h with h2 | h2
  · rcases foldl_fill_cell_snd_mem fillOrder (g, []) n h2 with h3 | h3
    · simp at h3
    · exact Or.inl h3
  · right
    refine ⟨((3 : ℤ), (3 : ℤ)), ?_⟩
    simpa [empty_cell] using h2

lemma push_data_mem {α : Type} (s stack : DynamicBoundedStack α) (m x : α)
    (hp : s.push m = .ok stack) (hx : x ∈ stack.data) :
    x ∈ s.data ∨ x = m := by
  unfold DynamicBoundedStack.push at hp
  by_cases hf : s.is_full = true
  · rw [if_pos hf] at hp
    cases hd : s.data with
    | nil => rw [hd] at hp; simp at hp
    | cons hh tt =>
      rw [hd] at hp
      simp only [Except.ok.injEq] at hp
      rw [← hp] at hx
      simp only at hx
      rcases List.mem_append.1 hx with h2 | h2
      · exact Or.inl (List.mem_cons_of_mem _ h2)
      · exact Or.inr (by simpa using h2)
  · rw [if_neg hf] at hp
    simp only [Except.ok.injEq] at hp
    rw [← hp] at hx
    simp only at hx
    rcases List.mem_append.1 hx with h2 | h2
    · exact Or.inl h2
    · exact Or.inr (by simpa using h2)

lemma pop_ok_shape {α : Type} (s stack : DynamicBoundedStack α) (m : α)
    (hp : s.pop = .ok (m, stack)) :
    s.data.getLast? = some m ∧ stack.data = s.data.dropLast ∧
      stack.size = s.size ∧ m ∈ s.data := by
  unfold DynamicBoundedStack.pop at hp
  cases hl : s.data.getLast? with
  | none => rw [hl] at hp; simp at hp
  | some y =>
    rw [hl] at hp
    simp only [Except.ok.injEq, Prod.mk.injEq] at hp
    obtain ⟨hy, hstack⟩ := hp
    subst hy
    have hmem : y ∈ s.data := by
      have h2 : y ∈ s.data.getLast? := by
        rw [Option.mem_def]
        exact hl
      obtain ⟨hne, heq⟩ := List.mem_getLast?_eq_getLast h2
      rw [heq]
      exact List.getLast_mem hne
    exact ⟨rfl, by rw [← hstack], by rw [← hstack], hmem⟩

lemma movement_done_fst_board (g : SenkuGame) (m : Move) :
    (movement_done g m).1.board = g.board ∧
      (movement_done g m).1.withTracking = g.withTracking := by
  unfold movement_done
  cases g.undoStack.push m with
  | error e => exact ⟨rfl, rfl⟩
  | ok stack =>
    simp only
    split
    · exact ⟨rfl, rfl⟩
    · exact ⟨rfl, rfl⟩

/-! GAME_OVER is emitted only after a completed scan finding no movement. -/

lemma movementExists_false_of_scanBoard (d : Board) (acc n : ℕ)
    (h : scanBoard d d acc = .ok (some n)) : movementExists d = false := by
  obtain ⟨h1, _⟩ := scanBoard_ok_some d d acc n h
  cases hval : movementExists d with
  | false => rfl
  | true =>
    exfalso
    unfold movementExists at hval
    rw [List.any_eq_true] at hval
    obtain ⟨⟨p1, c⟩, hmem, hb⟩ := hval
    rw [Bool.and_eq_true] at hb
    obtain ⟨hc, hfound⟩ := hb
    simp only at hc hfound
    subst hc
    unfold foundB at hfound
    rw [List.any_eq_true] at hfound
    obtain ⟨p2, hp2, hp2b⟩ := hfound
    rw [Bool.and_eq_true] at hp2b
    have hsd := h1 (p1, true) hmem rfl
    exact scanDest_ok_false d p1 (keys d) hsd p2 hp2
      ⟨hp2b.1, (isOkTrue_eq_true_iff _).1 hp2b.2⟩

lemma check_end_gameOver_sound (g : SenkuGame) (n : ℕ)
    (h : Notification.gameOver n ∈ (check_end g).1) :
    movementExists g.board = false := by
  unfold check_end at h
  cases hs : scanBoard g.board g.board 0 with
  | error e => rw [hs] at h; simp at h
  | ok r =>
    rw [hs] at h
    cases r with
    | none => simp at h
    | some n2 => exact movementExists_false_of_scanBoard g.board 0 n2 hs

lemma movement_done_gameOver (g : SenkuGame) (m : Move) (n : ℕ)
    (h : Notification.gameOver n ∈ (movement_done g m).2.1) :
    movementExists (movement_done g m).1.board = false ∧
      (movement_done g m).1.withTracking = true := by
  unfold movement_done at h ⊢
  cases hpe : g.undoStack.push m with
  | error e =>
    rw [hpe] at h
    simp at h
  | ok stack =>
    rw [hpe] at h
    simp only at h ⊢
    by_cases ht : g.withTracking = true
    · rw [if_pos ht] at h ⊢
      simp only [List.mem_cons] at h
      rcases h with h | h
      · exact absurd h (by simp)
      · exact ⟨check_end_gameOver_sound _ n h, ht⟩
    · rw [if_neg ht] at h
      simp at h

lemma step_gameOver (g : SenkuGame) (op : Op) (n : ℕ)
    (h : Notification.gameOver n ∈ (step g op).2.1) :
    movementExists (step g op).1.board = false ∧
      (∀ o t, op = Op.attemptMove o t → (step g op).1.withTracking = true) := by
  cases op with
  | checkEnd =>
    refine ⟨?_, fun o t hcon => Op.noConfusion hcon⟩
    have h2 : Notification.gameOver n ∈ (check_end g).1 := h
    exact check_end_gameOver_sound g n h2
  | setTracking b =>
    exact absurd h (by simp [step, set_tracking])
  | replayAllState =>
    exfalso
    simp only [step, get_all_changes, List.mem_cons] at h
    rcases h with h | h
    · exact Notification.noConfusion h
    · obtain ⟨k, hk, heq⟩ := List.mem_map.1 h
      revert heq
      cases lookupPos g.board k with
      | none => exact fun heq => Notification.noConfusion heq
      | some b => cases b <;> exact fun heq => Notification.noConfusion heq
  | undoOp =>
    exfalso
    simp only [step] at h
    unfold SenkuGame.undo at h
    cases hpp : g.undoStack.pop with
    | error e =>
      rw [hpp] at h
      simp at h
    | ok pair =>
      rw [hpp] at h
      simp only [Move.undo, fill_cell, empty_cell] at h
      simp at h
  | restartOp =>
    exfalso
    simp only [step] at h
    unfold restart at h
    simp only at h
    rcases List.mem_append.1 h with h2 | h2
    · rcases fill_board_snd_mem g _ h2 with ⟨p, hp⟩ | ⟨p, hp⟩ <;>
        exact Notification.noConfusion hp
    · have : Notification.gameOver n = Notification.undoStack
          ((fill_board g).1.undoStack.make_empty).data := by simpa using h2
      exact Notification.noConfusion this
  | attemptMove o t =>
    simp only [step] at h ⊢
    unfold attempt_move Move.execute at h ⊢
    by_cases hd : check_distance (mkMove o t).origin (mkMove o t).dest = true
    · rw [if_pos hd] at h ⊢
      cases hcc : check_cells g.board (mkMove o t).origin (mkMove o t).dest with
      | error e =>
        rw [hcc] at h
        simp at h
      | ok b =>
        rw [hcc] at h
        cases b with
        | false => simp at h
        | true =>
          simp only [empty_cell, fill_cell, List.mem_cons] at h
          rcases h with h | h
          · exact absurd h (by simp)
          rcases h with h | h
          · exact absurd h (by simp)
          rcases h with h | h
          · exact absurd h (by simp)
          obtain ⟨h1, h2⟩ := movement_done_gameOver _ _ n h
          exact ⟨h1, fun o2 t2 hop => h2⟩
    · rw [if_neg hd] at h
      simp at h

/-- Every notification emitted by one engine call respects the amended C6
condition. -/
lemma step_sound (g : SenkuGame) (op : Op) :
    ((step g op).2.1.all fun n =>
      match n with
      | .gameOver _ =>
        !movementExists (step g op).1.board &&
          (match op with
           | .attemptMove _ _ => (step g op).1.withTracking
           | _ => true)
      | _ => true) = true := by
  rw [List.all_eq_true]
  intro n hn
  cases n with
  | cellOn p => rfl
  | cellOff p => rfl
  | undoStack l => rfl
  | gameOver k =>
    obtain ⟨h1, h2⟩ := step_gameOver g op k hn
    simp only [h1, Bool.not_false, Bool.true_and]
    cases op with
    | attemptMove o t => exact h2 o t rfl
    | undoOp => rfl
    | restartOp => rfl
    | setTracking b => rfl
    | replayAllState => rfl
    | checkEnd => rfl

/-! State invariant of reachable games. -/

lemma lookupPos_dictSet_isSome (d : Board) (k : Pos) (v : Bool) (p : Pos)
    (h : (lookupPos d p).isSome) : (lookupPos (dictSet d k v) p).isSome := by
  by_cases hp : p = k
  · subst hp
    rw [lookupPos_dictSet_self]
    rfl
  · rw [lookupPos_dictSet_ne d k v p hp]
    exact h

lemma movement_done_stack_mem (g : SenkuGame) (m x : Move)
    (hx : x ∈ (movement_done g m).1.undoStack.data) :
    x ∈ g.undoStack.data ∨ x = m := by
  unfold movement_done at hx
  cases hpe : g.undoStack.push m with
  | error e =>
    rw [hpe] at hx
    exact Or.inl hx
  | ok stack =>
    rw [hpe] at hx
    simp only at hx
    by_cases ht : g.withTracking = true
    · rw [if_pos ht] at hx
      exact push_data_mem _ _ _ _ hpe hx
    · rw [if_neg ht] at hx
      exact push_data_mem _ _ _ _ hpe hx

lemma attempt_move_cases (g : SenkuGame) (o t : Pos) :
    (attempt_move g o t).1 = g ∨
    (check_cells g.board o t = .ok true ∧
      (attempt_move g o t).1.board =
        dictSet (dictSet (dictSet g.board o false) t true) (avg o t) false ∧
      (attempt_move g o t).1.withTracking = g.withTracking ∧
      ∀ x ∈ (attempt_move g o t).1.undoStack.data,
        x ∈ g.undoStack.data ∨ x = mkMove o t) := by
  unfold attempt_move Move.execute
  by_cases hd : check_distance (mkMove o t).origin (mkMove o t).dest = true
  · rw [if_pos hd]
    cases hcc : check_cells g.board (mkMove o t).origin (mkMove o t).dest with
    | error e => exact Or.inl rfl
    | ok b =>
      cases b with
      | false => exact Or.inl rfl
      | true =>
        right
        refine ⟨hcc, ?_, ?_, ?_⟩
        · exact (movement_done_fst_board { g with board := dictSet (dictSet (dictSet g.board o false) t true) (avg o t) false } (mkMove o t)).1
        · exact (movement_done_fst_board { g with board := dictSet (dictSet (dictSet g.board o false) t true) (avg o t) false } (mkMove o t)).2
        · intro x hx
          exact movement_done_stack_mem { g with board := dictSet (dictSet (dictSet g.board o false) t true) (avg o t) false } (mkMove o t) x hx
  · rw [if_neg hd]
    exact Or.inl rfl

lemma stateInv_init : StateInv initGame := by
  constructor
  · decide
  · intro m hm
    have hd : initGame.undoStack.data = [] := by decide
    rw [hd] at hm
    simp at hm

lemma stateInv_step (g : SenkuGame) (op : Op) (h : StateInv g) :
    StateInv (step g op).1 := by
  obtain ⟨hkeys, hstack⟩ := h
  cases op with
  | setTracking b => exact ⟨hkeys, hstack⟩
  | replayAllState => exact ⟨hkeys, hstack⟩
  | checkEnd => exact ⟨hkeys, hstack⟩
  | attemptMove o t =>
    rcases attempt_move_cases g o t with heq | ⟨hcc, hboard, htr, hmem⟩
    · show StateInv (attempt_move g o t).1
      rw [heq]
      exact ⟨hkeys, hstack⟩
    · obtain ⟨ho, ht2, hm⟩ := (check_cells_ok_true_iff g.board o t).1 hcc
      have hso : (lookupPos g.board o).isSome := by rw [ho]; rfl
      have hst : (lookupPos (dictSet g.board o false) t).isSome :=
        lookupPos_dictSet_isSome _ _ _ _ (by rw [ht2]; rfl)
      have hsm : (lookupPos (dictSet (dictSet g.board o false) t true)
          (avg o t)).isSome :=
        lookupPos_dictSet_isSome _ _ _ _
          (lookupPos_dictSet_isSome _ _ _ _ (by rw [hm]; rfl))
      constructor
      · show keys (step g (Op.attemptMove o t)).1.board = fillOrder
        have hb : (step g (Op.attemptMove o t)).1.board =
            dictSet (dictSet (dictSet g.board o false) t true) (avg o t) false :=
          hboard
        rw [hb, keys_dictSet_present _ _ _ hsm, keys_dictSet_present _ _ _ hst,
          keys_dictSet_present _ _ _ hso, hkeys]
      · intro x hx
        rcases hmem x hx with h2 | h2
        · exact hstack x h2
        · subst h2
          refine ⟨?_, ?_, ?_⟩
          · show o ∈ fillOrder
            rw [← hkeys]
            exact (lookupPos_isSome_iff _ _).1 (by rw [ho]; rfl)
          · show avg o t ∈ fillOrder
            rw [← hkeys]
            exact (lookupPos_isSome_iff _ _).1 (by rw [hm]; rfl)
          · show t ∈ fillOrder
            rw [← hkeys]
            exact (lookupPos_isSome_iff _ _).1 (by rw [ht2]; rfl)
  | undoOp =>
    simp only [step]
    unfold SenkuGame.undo
    cases hpp : g.undoStack.pop with
    | error e => exact ⟨hkeys, hstack⟩
    | ok pair =>
      obtain ⟨m, stack⟩ := pair
      obtain ⟨hgl, hsd, hss, hmem⟩ := pop_ok_shape _ _ _ hpp
      obtain ⟨horig, hmid, hdest⟩ := hstack m hmem
      have hso : (lookupPos g.board m.origin).isSome :=
        (lookupPos_isSome_iff _ _).2 (by rw [hkeys]; exact horig)
      have hsm : (lookupPos (dictSet g.board m.origin true) m.mid).isSome :=
        lookupPos_dictSet_isSome _ _ _ _
          ((lookupPos_isSome_iff _ _).2 (by rw [hkeys]; exact hmid))
      have hsd2 : (lookupPos (dictSet (dictSet g.board m.origin true) m.mid true)
          m.dest).isSome :=
        lookupPos_dictSet_isSome _ _ _ _
          (lookupPos_dictSet_isSome _ _ _ _
            ((lookupPos_isSome_iff _ _).2 (by rw [hkeys]; exact hdest)))
      constructor
      · show keys (dictSet (dictSet (dictSet g.board m.origin true) m.mid true)
            m.dest false) = fillOrder
        rw [keys_dictSet_present _ _ _ hsd2, keys_dictSet_present _ _ _ hsm,
          keys_dictSet_present _ _ _ hso, hkeys]
      · intro x hx
        have hx2 : x ∈ stack.data := hx
        rw [hsd] at hx2
        exact hstack x ((List.dropLast_sublist _).subset hx2)
  | restartOp =>
    have hk1 : keys (fillTrue g.board fillOrder) = keys g.board :=
      keys_fillTrue _ _ (fun c hc => by rw [hkeys]; exact hc)
    have h33 : (lookupPos (fillTrue g.board fillOrder) ((3 : ℤ), (3 : ℤ))).isSome := by
      rw [lookupPos_fillTrue]
      have hmem : ((3 : ℤ), (3 : ℤ)) ∈ fillOrder := by decide
      rw [if_pos hmem]
      rfl
    show StateInv (restart g).1
    rw [restart_fst]
    refine ⟨?_, ?_⟩
    · simp only
      rw [keys_dictSet_present _ _ _ h33, hk1, hkeys]
    · intro x hx
      simp at hx

lemma stateInv_run (ops : List Op) (g : SenkuGame) (h : StateInv g) :
    StateInv (runOps g ops) := by
  induction ops generalizing g with
  | nil => exact h
  | cons op rest ih => exact ih (step g op).1 (stateInv_step g op h)

/-! Remaining support lemmas for the claims. -/

lemma restart_board (g : SenkuGame) :
    (restart g).1.board =
      dictSet (fillTrue g.board fillOrder) ((3 : ℤ), (3 : ℤ)) false := by
  rw [restart_fst]

lemma restart_stack_data (g : SenkuGame) :
    (restart g).1.undoStack.data = [] := by
  rw [restart_fst]

lemma execute_ok_true_board (g : SenkuGame) (o t : Pos)
    (hd : check_distance o t = true)
    (hc : check_cells g.board o t = .ok true) :
    ((mkMove o t).execute g).1.board =
      dictSet (dictSet (dictSet g.board o false) t true) (avg o t) false := by
  unfold Move.execute
  simp only [mkMove]
  rw [if_pos hd, hc]
  simp only [empty_cell, fill_cell]
  exact (movement_done_fst_board { g with board := dictSet (dictSet (dictSet g.board o false) t true) (avg o t) false } (mkMove o t)).1

lemma undo_board (g : SenkuGame) (m : Move) :
    (m.undo g).1.board =
      dictSet (dictSet (dictSet g.board m.origin true) m.mid true) m.dest false := by
  unfold Move.undo
  simp only [fill_cell, empty_cell]

lemma keys_initBoard : keys initBoard = fillOrder := by decide

lemma push_not_full {α : Type} (s : DynamicBoundedStack α) (x : α)
    (h : s.data.length ≠ s.size) :
    s.push x = .ok { data := s.data ++ [x], size := s.size } := by
  unfold DynamicBoundedStack.push DynamicBoundedStack.is_full
  rw [if_neg (by simpa using h)]

lemma push_full_cons {α : Type} (s : DynamicBoundedStack α) (x hh : α) (tt : List α)
    (h : s.data.length = s.size) (hdata : s.data = hh :: tt) :
    s.push x = .ok { data := tt ++ [x], size := s.size } := by
  unfold DynamicBoundedStack.push DynamicBoundedStack.is_full
  rw [if_pos (by simpa using h), hdata]

lemma pushAll_char {α : Type} (s : DynamicBoundedStack α) (xs : List α)
    (hlen : s.data.length ≤ s.size) (hsize : 1 ≤ s.size) :
    pushAll s xs =
      .ok { data := (s.data ++ xs).drop (s.data.length + xs.length - s.size),
            size := s.size } := by
  induction xs generalizing s with
  | nil =>
    obtain ⟨data, size⟩ := s
    simp only [pushAll, List.append_nil, List.length_nil, Nat.add_zero]
    have hz : data.length - size = 0 := by
      simp only at hlen
      omega
    rw [hz, List.drop_zero]
  | cons x rest ih =>
    by_cases hfull : s.data.length = s.size
    · cases hdata : s.data with
      | nil =>
        exfalso
        rw [hdata] at hfull
        simp at hfull
        omega
      | cons hh tt =>
        unfold pushAll
        rw [push_full_cons s x hh tt hfull hdata]
        show pushAll { data := tt ++ [x], size := s.size } rest = _
        have hlen2 : (tt ++ [x]).length ≤ s.size := by
          have : s.data.length = tt.length + 1 := by rw [hdata]; simp
          simp
          omega
        rw [ih { data := tt ++ [x], size := s.size } hlen2 hsize]
        simp only [Except.ok.injEq, DynamicBoundedStack.mk.injEq, and_true]
        have e1 : (tt ++ [x]) ++ rest = tt ++ x :: rest := by simp
        have hsz : s.size = tt.length + 1 := by
          rw [← hfull, hdata]
          simp
        have i1 : (tt ++ [x]).length + rest.length - s.size = rest.length := by
          simp only [List.length_append, List.length_cons, List.length_nil]
          omega
        have i2 : (hh :: tt).length + (x :: rest).length - s.size = rest.length + 1 := by
          simp only [List.length_append, List.length_cons, List.length_nil]
          omega
        rw [e1, i1, i2, List.cons_append, List.drop_succ_cons]
    · unfold pushAll
      rw [push_not_full s x hfull]
      show pushAll { data := s.data ++ [x], size := s.size } rest = _
      have hlen2 : (s.data ++ [x]).length ≤ s.size := by
        simp
        omega
      rw [ih { data := s.data ++ [x], size := s.size } hlen2 hsize]
      simp only [Except.ok.injEq, DynamicBoundedStack.mk.injEq, and_true]
      have e1 : (s.data ++ [x]) ++ rest = s.data ++ x :: rest := by simp
      rw [e1]
      have i1 : (s.data ++ [x]).length + rest.length - s.size
          = s.data.length + (x :: rest).length - s.size := by
        simp
        omega
      rw [i1]

lemma map_keys_lookup (d : Board) (hnd : (keys d).Nodup) :
    (keys d).map (fun k =>
      match lookupPos d k with
      | some true => Notification.cellOn k
      | _ => Notification.cellOff k) =
    d.map (fun kv =>
      if kv.2 then Notification.cellOn kv.1 else Notification.cellOff kv.1) := by
  induction d with
  | nil => rfl
  | cons kv rest ih =>
    obtain ⟨k, v⟩ := kv
    simp only [keys, List.map_cons] at hnd ⊢
    rw [List.nodup_cons] at hnd
    have hhead : (match lookupPos ((k, v) :: rest) k with
        | some true => Notification.cellOn k
        | _ => Notification.cellOff k)
        = if v then Notification.cellOn k else Notification.cellOff k := by
      cases v <;> simp [lookupPos]
    rw [hhead]
    have htail : (List.map Prod.fst rest).map (fun k2 =>
        match lookupPos ((k, v) :: rest) k2 with
        | some true => Notification.cellOn k2
        | _ => Notification.cellOff k2)
        = (List.map Prod.fst rest).map (fun k2 =>
        match lookupPos rest k2 with
        | some true => Notification.cellOn k2
        | _ => Notification.cellOff k2) := by
      apply List.map_congr_left
      intro k2 hk2
      have hne : ¬ k = k2 := by
        intro heq
        subst heq
        exact hnd.1 hk2
      simp only [lookupPos, if_neg hne]
    rw [htail]
    have ih2 := ih hnd.2
    simp only [keys] at ih2
    rw [ih2]

/-! The claims. -/

/-- Claim C1: for every move whose origin and destination satisfy the
legal-distance check and whose occupancy satisfies the legal-occupancy check
on the current board, executing the move and then undoing it restores the
occupancy of the origin, midpoint and destination cells exactly. -/
theorem c1_move_roundtrip (g : SenkuGame) (orig dest : Pos)
    (hd : check_distance orig dest = true)
    (hc : check_cells g.board orig dest = .ok true) :
    lookupPos ((mkMove orig dest).undo ((mkMove orig dest).execute g).1).1.board orig
        = lookupPos g.board orig ∧
    lookupPos ((mkMove orig dest).undo ((mkMove orig dest).execute g).1).1.board (avg orig dest)
        = lookupPos g.board (avg orig dest) ∧
    lookupPos ((mkMove orig dest).undo ((mkMove orig dest).execute g).1).1.board dest
        = lookupPos g.board dest := by
  obtain ⟨ho, ht2, hm⟩ := (check_cells_ok_true_iff g.board orig dest).1 hc
  obtain ⟨hne1, hne2, hne3⟩ := avg_ne orig dest hd
  have hb : ((mkMove orig dest).undo ((mkMove orig dest).execute g).1).1.board
      = dictSet (dictSet (dictSet (((mkMove orig dest).execute g).1).board orig true)
          (avg orig dest) true) dest false := by
    rw [undo_board]
    simp only [mkMove]
  rw [hb, execute_ok_true_board g orig dest hd hc]
  refine ⟨?_, ?_, ?_⟩
  · rw [lookupPos_dictSet_ne _ _ _ _ hne3,
      lookupPos_dictSet_ne _ _ _ _ (fun h2 => hne1 h2.symm),
      lookupPos_dictSet_self, ho]
  · rw [lookupPos_dictSet_ne _ _ _ _ hne2, lookupPos_dictSet_self, hm]
  · rw [lookupPos_dictSet_self, ht2]

theorem c1_move_roundtrip_witness :
    check_distance ((1 : ℤ), (3 : ℤ)) ((3 : ℤ), (3 : ℤ)) = true ∧
    check_cells (set_tracking initGame false).1.board
      ((1 : ℤ), (3 : ℤ)) ((3 : ℤ), (3 : ℤ)) = .ok true ∧
    (lookupPos ((mkMove ((1 : ℤ), (3 : ℤ)) ((3 : ℤ), (3 : ℤ))).undo
        ((mkMove ((1 : ℤ), (3 : ℤ)) ((3 : ℤ), (3 : ℤ))).execute
          (set_tracking initGame false).1).1).1.board ((1 : ℤ), (3 : ℤ))
        = lookupPos (set_tracking initGame false).1.board ((1 : ℤ), (3 : ℤ)) ∧
      lookupPos ((mkMove ((1 : ℤ), (3 : ℤ)) ((3 : ℤ), (3 : ℤ))).undo
        ((mkMove ((1 : ℤ), (3 : ℤ)) ((3 : ℤ), (3 : ℤ))).execute
          (set_tracking initGame false).1).1).1.board
          (avg ((1 : ℤ), (3 : ℤ)) ((3 : ℤ), (3 : ℤ)))
        = lookupPos (set_tracking initGame false).1.board
            (avg ((1 : ℤ), (3 : ℤ)) ((3 : ℤ), (3 : ℤ))) ∧
      lookupPos ((mkMove ((1 : ℤ), (3 : ℤ)) ((3 : ℤ), (3 : ℤ))).undo
        ((mkMove ((1 : ℤ), (3 : ℤ)) ((3 : ℤ), (3 : ℤ))).execute
          (set_tracking initGame false).1).1).1.board ((3 : ℤ), (3 : ℤ))
        = lookupPos (set_tracking initGame false).1.board ((3 : ℤ), (3 : ℤ))) :=
  ⟨by decide, by decide,
    c1_move_roundtrip (set_tracking initGame false).1
      ((1 : ℤ), (3 : ℤ)) ((3 : ℤ), (3 : ℤ)) (by decide) (by decide)⟩

/-- Claim C2: on a board whose keys are the 33 playable cells, check_end
emits nothing when some occupied cell has a destination passing both checks,
and emits exactly one GAME_OVER notification carrying the number of occupied
cells when no such pair exists. -/
theorem c2_check_end (g : SenkuGame) (hkeys : keys g.board = fillOrder) :
    (MovementPossible g.board → check_end g = ([], none)) ∧
    (¬ MovementPossible g.board →
      check_end g = ([Notification.gameOver (occupiedCount g.board)], none)) := by
  have hchar := check_end_char g hkeys
  constructor
  · intro hmp
    rw [hchar, if_pos ((movementExists_iff g.board hkeys).2 hmp)]
  · intro hmp
    rw [hchar, if_neg (fun hex => hmp ((movementExists_iff g.board hkeys).1 hex))]

theorem c2_check_end_witness :
    keys initGame.board = fillOrder ∧
    MovementPossible initGame.board ∧
    check_end initGame = ([], none) := by
  have h1 : keys initGame.board = fillOrder := by decide
  have h2 : MovementPossible initGame.board :=
    ⟨((1 : ℤ), (3 : ℤ)), ((3 : ℤ), (3 : ℤ)), by decide, by decide, by decide,
      by decide⟩
  exact ⟨h1, h2, (c2_check_end initGame h1).1 h2⟩

/-- Claim C3: pushing N + k elements (k at least 1) into a fresh stack of
positive capacity N never fails and leaves exactly the last N pushed
elements, oldest first. -/
theorem c3_bounded_push (N k : ℕ) (xs : List ℕ) (hN : 1 ≤ N) (hk : 1 ≤ k)
    (hlen : xs.length = N + k) :
    pushAll { data := ([] : List ℕ), size := N } xs =
      .ok { data := xs.drop k, size := N } ∧ (xs.drop k).length = N := by
  constructor
  · rw [pushAll_char { data := ([] : List ℕ), size := N } xs (by simp)
      (by simpa using hN)]
    simp only [List.nil_append, List.length_nil, Nat.zero_add]
    have hix : xs.length - N = k := by omega
    rw [hix]
  · rw [List.length_drop]
    omega

theorem c3_bounded_push_witness :
    1 ≤ 2 ∧ 1 ≤ 1 ∧ ([10, 20, 30] : List ℕ).length = 2 + 1 ∧
    (pushAll { data := ([] : List ℕ), size := 2 } [10, 20, 30] =
      .ok { data := [10, 20, 30].drop 1, size := 2 } ∧
      (([10, 20, 30] : List ℕ).drop 1).length = 2) :=
  ⟨by decide, by decide, by decide,
    c3_bounded_push 2 1 [10, 20, 30] (by decide) (by decide) (by decide)⟩

/-- Claim C4: an attemptMove whose legal-distance check fails, or whose
legal-occupancy check returns false, is a complete no-op: state unchanged,
no notification, no error. -/
theorem c4_illegal_noop (g : SenkuGame) (orig dest : Pos)
    (h : check_distance orig dest = false ∨
      check_cells g.board orig dest = .ok false) :
    attempt_move g orig dest = (g, [], none) := by
  unfold attempt_move Move.execute
  simp only [mkMove]
  rcases h with h | h
  · rw [if_neg (by rw [h]; simp)]
  · by_cases hd : check_distance orig dest = true
    · rw [if_pos hd, h]
    · rw [if_neg hd]

theorem c4_illegal_noop_witness :
    check_distance ((2 : ℤ), (2 : ℤ)) ((4 : ℤ), (4 : ℤ)) = false ∧
    attempt_move initGame ((2 : ℤ), (2 : ℤ)) ((4 : ℤ), (4 : ℤ)) =
      (initGame, [], none) :=
  ⟨by decide,
    c4_illegal_noop initGame ((2 : ℤ), (2 : ℤ)) ((4 : ℤ), (4 : ℤ))
      (Or.inl (by decide))⟩

/-- Claim C5: undo on an empty history raises IndexError (the
EmptyHistoryError of the spec); on a non-empty history it pops the most
recent move, reverses it on the board (fill origin, fill midpoint, empty
destination) and notifies UNDO_STACK. -/
theorem c5_undo_behavior (g : SenkuGame) :
    (g.undoStack.data = [] → g.undo = (g, [], some PyErr.indexError)) ∧
    (∀ (m : Move) (rest : List Move), g.undoStack.data = rest ++ [m] →
      g.undo =
        ({ board := dictSet (dictSet (dictSet g.board m.origin true) m.mid true)
              m.dest false,
           undoStack := { data := rest, size := g.undoStack.size },
           withTracking := g.withTracking },
         [Notification.cellOn m.origin, Notification.cellOn m.mid,
          Notification.cellOff m.dest, Notification.undoStack rest], none)) := by
  constructor
  · intro h
    unfold SenkuGame.undo DynamicBoundedStack.pop
    rw [h]
    rfl
  · intro m rest h
    unfold SenkuGame.undo DynamicBoundedStack.pop
    rw [h, List.getLast?_concat, List.dropLast_concat]
    simp only [Move.undo, fill_cell, empty_cell]
    rfl

set_option maxRecDepth 4000 in
theorem c5_undo_behavior_witness :
    (initGame.undoStack.data = [] ∧
      initGame.undo = (initGame, [], some PyErr.indexError)) ∧
    (c5_game.undoStack.data =
        [] ++ [mkMove ((1 : ℤ), (3 : ℤ)) ((3 : ℤ), (3 : ℤ))] ∧
      c5_game.undo =
        ({ board := dictSet (dictSet (dictSet c5_game.board
              (mkMove ((1 : ℤ), (3 : ℤ)) ((3 : ℤ), (3 : ℤ))).origin true)
              (mkMove ((1 : ℤ), (3 : ℤ)) ((3 : ℤ), (3 : ℤ))).mid true)
              (mkMove ((1 : ℤ), (3 : ℤ)) ((3 : ℤ), (3 : ℤ))).dest false,
           undoStack := { data := [], size := c5_game.undoStack.size },
           withTracking := c5_game.withTracking },
         [Notification.cellOn (mkMove ((1 : ℤ), (3 : ℤ)) ((3 : ℤ), (3 : ℤ))).origin,
          Notification.cellOn (mkMove ((1 : ℤ), (3 : ℤ)) ((3 : ℤ), (3 : ℤ))).mid,
          Notification.cellOff (mkMove ((1 : ℤ), (3 : ℤ)) ((3 : ℤ), (3 : ℤ))).dest,
          Notification.undoStack []], none)) :=
  ⟨⟨by decide, (c5_undo_behavior initGame).1 (by decide)⟩,
   ⟨by decide,
    (c5_undo_behavior c5_game).2
      (mkMove ((1 : ℤ), (3 : ℤ)) ((3 : ℤ), (3 : ℤ))) [] (by decide)⟩⟩

/-- Claim C6 (amended): in every sequence of engine operations, a GAME_OVER
notification is emitted only when no movement remains on the board after the
call; the tracking flag being enabled is additionally guaranteed when the
emitting call is an attemptMove, while a direct checkEnd call emits it
regardless of the tracking flag. -/
theorem c6_gameOver_sound (g : SenkuGame) (ops : List Op) :
    gameOverSound g ops = true := by
  induction ops generalizing g with
  | nil => rfl
  | cons op rest ih =>
    simp only [gameOverSound]
    rw [Bool.and_eq_true]
    exact ⟨step_sound g op, ih (step g op).1⟩

set_option maxRecDepth 8000 in
/-- Claim C6, counterexample to the claim as stated: disable tracking, play
six legal moves into a stalemate, then call check_end directly; GAME_OVER is
emitted with tracking disabled. -/
theorem c6_counterexample : gameOverOnlyTracked initGame c6_ops = false := by
  decide

/-- Claim C7: from construction onward, the key set of the board is exactly
the 33 cross cells, under every sequence of engine operations. -/
theorem c7_board_keys (ops : List Op) (p : Pos) :
    p ∈ keys (runOps initGame ops).board ↔ inCross p := by
  rw [(stateInv_run ops initGame stateInv_init).1]
  exact mem_fillOrder_iff_inCross p

/-- Claim C8: after restart from any reachable state, the board equals the
canonical initial layout exactly (every cross cell occupied except the
centre, 32 occupied cells in total, nothing else present) and the undo
history is empty. -/
theorem c8_restart_canonical (ops : List Op) :
    (restart (runOps initGame ops)).1.board = initBoard ∧
    (∀ p : Pos, lookupPos initBoard p =
      if inCross p then some (decide (p ≠ ((3 : ℤ), (3 : ℤ)))) else none) ∧
    occupiedCount initBoard = 32 ∧
    (restart (runOps initGame ops)).1.undoStack.data = [] := by
  have hkeys := (stateInv_run ops initGame stateInv_init).1
  have hbk : keys (restart (runOps initGame ops)).1.board = fillOrder := by
    rw [restart_board]
    have hk1 : keys (fillTrue (runOps initGame ops).board fillOrder) =
        keys (runOps initGame ops).board :=
      keys_fillTrue _ _ (fun c hc => by rw [hkeys]; exact hc)
    have h33 : (lookupPos (fillTrue (runOps initGame ops).board fillOrder)
        ((3 : ℤ), (3 : ℤ))).isSome := by
      rw [lookupPos_fillTrue,
        if_pos (by decide : ((3 : ℤ), (3 : ℤ)) ∈ fillOrder)]
      rfl
    rw [keys_dictSet_present _ _ _ h33, hk1, hkeys]
  have hlook : ∀ p, lookupPos (restart (runOps initGame ops)).1.board p =
      if p ∈ fillOrder then some (decide (p ≠ ((3 : ℤ), (3 : ℤ)))) else none := by
    intro p
    rw [restart_board]
    by_cases hp : p = ((3 : ℤ), (3 : ℤ))
    · subst hp
      rw [lookupPos_dictSet_self,
        if_pos (by decide : ((3 : ℤ), (3 : ℤ)) ∈ fillOrder)]
      decide
    · rw [lookupPos_dictSet_ne _ _ _ _ hp, lookupPos_fillTrue]
      by_cases hin : p ∈ fillOrder
      · rw [if_pos hin, if_pos hin]
        simp [hp]
      · rw [if_neg hin, if_neg hin, lookupPos_eq_none_iff, hkeys]
        exact hin
  have hlook2 : ∀ p, lookupPos initBoard p =
      if p ∈ fillOrder then some (decide (p ≠ ((3 : ℤ), (3 : ℤ)))) else none := by
    intro p
    unfold initBoard
    rw [lookupPos_map_pair]
  refine ⟨?_, ?_, ?_, ?_⟩
  · apply eq_of_lookupPos_eq
    · rw [hbk, keys_initBoard]
    · rw [hbk]
      exact fillOrder_nodup
    · intro p
      rw [hlook p, hlook2 p]
  · intro p
    rw [hlook2 p]
    by_cases hin : p ∈ fillOrder
    · rw [if_pos hin, if_pos ((mem_fillOrder_iff_inCross p).1 hin)]
    · rw [if_neg hin,
        if_neg (fun hc => hin ((mem_fillOrder_iff_inCross p).2 hc))]
  · decide
  · exact restart_stack_data _

/-- Claim C9: replayAllState emits one UNDO_STACK notification plus exactly
one cell notification per board cell matching its occupancy, and leaves the
board, the history and the tracking flag unchanged. -/
theorem c9_replay_all (g : SenkuGame) (hnd : (keys g.board).Nodup) :
    get_all_changes g =
      (g, Notification.undoStack g.undoStack.data ::
        g.board.map (fun kv =>
          if kv.2 then Notification.cellOn kv.1 else Notification.cellOff kv.1),
       none) := by
  unfold get_all_changes
  rw [map_keys_lookup g.board hnd]

theorem c9_replay_all_witness :
    (keys initGame.board).Nodup ∧
    get_all_changes initGame =
      (initGame, Notification.undoStack initGame.undoStack.data ::
        initGame.board.map (fun kv =>
          if kv.2 then Notification.cellOn kv.1 else Notification.cellOff kv.1),
       none) :=
  ⟨by decide, c9_replay_all initGame (by decide)⟩

/-- Claim C10 (amended): an attemptMove passing the distance check with
origin, destination or midpoint outside the valid cell set raises a KeyError
and leaves the state unchanged, except when the origin is a valid empty
cell: then the short-circuited occupancy check returns false before reading
the missing key and the call is silently ignored (a midpoint outside the set
is unreachable when both endpoints are inside). -/
theorem c10_outside_raises (g : SenkuGame) (orig dest : Pos)
    (hkeys : keys g.board = fillOrder)
    (hd : check_distance orig dest = true)
    (hout : ¬ inCross orig ∨ ¬ inCross dest ∨ ¬ inCross (avg orig dest)) :
    (∃ key, attempt_move g orig dest = (g, [], some (PyErr.keyError key))) ∨
      (attempt_move g orig dest = (g, [], none) ∧
        lookupPos g.board orig = some false) := by
  have hmem : ∀ p : Pos, p ∈ keys g.board ↔ inCross p := fun p => by
    rw [hkeys]
    exact mem_fillOrder_iff_inCross p
  unfold attempt_move Move.execute
  simp only [mkMove]
  rw [if_pos hd]
  by_cases ho : inCross orig
  · have hsome : (lookupPos g.board orig).isSome :=
      (lookupPos_isSome_iff _ _).2 ((hmem orig).2 ho)
    obtain ⟨b, hb⟩ := Option.isSome_iff_exists.1 hsome
    cases b with
    | false =>
      right
      have hcc : check_cells g.board orig dest = .ok false := by
        unfold check_cells dictGet
        rw [hb]
      rw [hcc]
      exact ⟨rfl, hb⟩
    | true =>
      by_cases ht : inCross dest
      · exfalso
        have hmid : inCross (avg orig dest) := by
          rw [← mem_fillOrder_iff_inCross]
          exact avg_mem_fillOrder orig dest
            ((mem_fillOrder_iff_inCross orig).2 ho)
            ((mem_fillOrder_iff_inCross dest).2 ht) hd
        rcases hout with h | h | h
        · exact h ho
        · exact h ht
        · exact h hmid
      · left
        have hnone : lookupPos g.board dest = none :=
          (lookupPos_eq_none_iff _ _).2 (fun hc => ht ((hmem dest).1 hc))
        have hcc : check_cells g.board orig dest = .error (PyErr.keyError dest) := by
          unfold check_cells dictGet
          rw [hb, hnone]
        rw [hcc]
        exact ⟨dest, rfl⟩
  · left
    have hnone : lookupPos g.board orig = none :=
      (lookupPos_eq_none_iff _ _).2 (fun hc => ho ((hmem orig).1 hc))
    have hcc : check_cells g.board orig dest = .error (PyErr.keyError orig) := by
      unfold check_cells dictGet
      rw [hnone]
    rw [hcc]
    exact ⟨orig, rfl⟩

set_option maxRecDepth 4000 in
theorem c10_outside_raises_witness :
    keys c10_state.board = fillOrder ∧
    check_distance ((1 : ℤ), (3 : ℤ)) ((1 : ℤ), (1 : ℤ)) = true ∧
    (¬ inCross ((1 : ℤ), (3 : ℤ)) ∨ ¬ inCross ((1 : ℤ), (1 : ℤ)) ∨
      ¬ inCross (avg ((1 : ℤ), (3 : ℤ)) ((1 : ℤ), (1 : ℤ)))) ∧
    ((∃ key, attempt_move c10_state ((1 : ℤ), (3 : ℤ)) ((1 : ℤ), (1 : ℤ)) =
        (c10_state, [], some (PyErr.keyError key))) ∨
      (attempt_move c10_state ((1 : ℤ), (3 : ℤ)) ((1 : ℤ), (1 : ℤ)) =
        (c10_state, [], none) ∧
        lookupPos c10_state.board ((1 : ℤ), (3 : ℤ)) = some false)) :=
  ⟨by decide, by decide, by decide,
    c10_outside_raises c10_state ((1 : ℤ), (3 : ℤ)) ((1 : ℤ), (1 : ℤ))
      (by decide) (by decide) (by decide)⟩

set_option maxRecDepth 4000 in
/-- Claim C10, counterexample to the claim as stated: on a reachable state
whose cell (1, 3) is valid but empty, the attempt from (1, 3) to the
out-of-board cell (1, 1) passes the distance check, yet raises no error and
is silently ignored. -/
theorem c10_counterexample :
    check_distance ((1 : ℤ), (3 : ℤ)) ((1 : ℤ), (1 : ℤ)) = true ∧
    ¬ inCross ((1 : ℤ), (1 : ℤ)) ∧
    attempt_move c10_state ((1 : ℤ), (3 : ℤ)) ((1 : ℤ), (1 : ℤ)) =
      (c10_state, [], none) := by
  refine ⟨by decide, by decide, by decide⟩

end PySenku
